import Mathlib

/-!
Verification of the Tic-Tac-Toe core (game-state evaluator and minimax move
search) against its specification.  The Python source works over a mutable
9-cell list of the characters 'X', 'O' and ' '; we embed boards as lists over
a three-valued cell type and model the in-place `board[move] = mark` /
`board[move] = ' '` mutation discipline by explicit state passing, so that the
"board is restored" frame properties are actual theorems about the embedding.
-/

namespace TicTacToe

/-- A board cell: the mark 'X', the mark 'O', or the blank ' '. -/
inductive Cell : Type
  | X
  | O
  | E
deriving DecidableEq, Repr

abbrev Board := List Cell

/-- `board[i]` of the source; out-of-range reads default to blank (the claims
under verification only concern 9-cell boards, where every access 0..8 is in
range). -/
def getc (b : Board) (i : Nat) : Cell := b.getD i Cell.E

/-- The 8 winning index triples of `check_winner`: 3 rows, 3 columns, 2
diagonals, in the source's order. -/
def wins : List (Nat × Nat × Nat) :=
  [(0,1,2), (3,4,5), (6,7,8),
   (0,3,6), (1,4,7), (2,5,8),
   (0,4,8), (2,4,6)]

/-- Return type of `check_winner`: a winner's mark, 'Tie', or None. -/
inductive WinnerResult : Type
  | mark (c : Cell)
  | tie
  | ongoing
deriving DecidableEq, Repr

/-- The loop condition `board[a] == board[b] == board[c] and board[a] != ' '`. -/
def lineWin (b : Board) (t : Nat × Nat × Nat) : Bool :=
  getc b t.1 == getc b t.2.1 && getc b t.2.1 == getc b t.2.2 && getc b t.1 != Cell.E

/-- `check_winner`: first completed line wins; otherwise 'Tie' when no blank
remains, else None (ongoing). -/
def check_winner (b : Board) : WinnerResult :=
  match wins.find? (lineWin b) with
  | some t => WinnerResult.mark (getc b t.1)
  | none => if Cell.E ∈ b then WinnerResult.ongoing else WinnerResult.tie

/-- `available_moves`: indices of blank cells, in increasing order
(`[i for i, c in enumerate(board) if c == ' ']`). -/
def available_moves (b : Board) : List Nat :=
  (b.enum.filter (fun p => p.2 == Cell.E)).map Prod.fst

/-- Scores in the source are Python numbers: the integers returned by the
terminal cases together with the sentinels `-math.inf` / `math.inf` used to
initialise the best-score accumulators. -/
inductive Score : Type
  | negInf
  | int (s : Int)
  | posInf
deriving DecidableEq, Repr

/-- Strict `<` on scores (IEEE ordering: -inf below every integer, +inf above). -/
def Score.blt : Score → Score → Bool
  | negInf, negInf => false
  | negInf, int _ => true
  | negInf, posInf => true
  | int _, negInf => false
  | int a, int b => decide (a < b)
  | int _, posInf => true
  | posInf, _ => false

/-- Python's `max(a, b)` on scores. -/
def Score.maxS (a b : Score) : Score := if Score.blt a b then b else a

/-- Python's `min(a, b)` on scores. -/
def Score.minS (a b : Score) : Score := if Score.blt b a then b else a

/-- `minimax`, with the in-place mutation made explicit: the returned pair is
(score, final board), and each `board[move] = mark` / `board[move] = ' '` of
the source becomes a `List.set` on the threaded board.  The extra `fuel`
argument only drives the structural recursion (the Python recursion
terminates because each call fills a blank cell); every call below passes it
fuel exceeding the number of blank cells, where the 0-fuel default is
unreachable. -/
def minimax_st : Nat → Board → Nat → Bool → Cell → Cell → Score × Board
  | 0, board, _, _, _, _ => (Score.int 0, board)
  | fuel+1, board, depth, is_maximizing, player, opponent =>
    let result := check_winner board
    if result = WinnerResult.mark player then (Score.int (10 - (depth : Int)), board)
    else if result = WinnerResult.mark opponent then (Score.int (-10 + (depth : Int)), board)
    else if result = WinnerResult.tie then (Score.int 0, board)
    else if is_maximizing then
      (available_moves board).foldl
        (fun acc move =>
          let b1 := acc.2.set move player
          let r := minimax_st fuel b1 (depth+1) false player opponent
          let b2 := r.2.set move Cell.E
          (Score.maxS acc.1 r.1, b2))
        (Score.negInf, board)
    else
      (available_moves board).foldl
        (fun acc move =>
          let b1 := acc.2.set move opponent
          let r := minimax_st fuel b1 (depth+1) true player opponent
          let b2 := r.2.set move Cell.E
          (Score.minS acc.1 r.1, b2))
        (Score.posInf, board)

/-- The score computed by `minimax`. -/
def minimax (fuel : Nat) (b : Board) (depth : Nat) (is_maximizing : Bool)
    (player opponent : Cell) : Score :=
  (minimax_st fuel b depth is_maximizing player opponent).1

/-- `best_move_for_computer`, with the board threaded explicitly as in
`minimax_st`: the first component accumulates (best score, candidates) exactly
as the source loop does, the second is the board after the loop.  Fuel 9 for
the inner `minimax` calls suffices on 9-cell boards: after placing `comp` at a
blank cell at most 8 blanks remain. -/
def best_move_st (board : Board) (comp human : Cell) : (Score × List Nat) × Board :=
  (available_moves board).foldl
    (fun acc move =>
      let b1 := acc.2.set move comp
      let r := minimax_st 9 b1 0 false comp human
      let b2 := r.2.set move Cell.E
      if Score.blt acc.1.1 r.1 then ((r.1, [move]), b2)
      else if r.1 = acc.1.1 then ((acc.1.1, acc.1.2 ++ [move]), b2)
      else (acc.1, b2))
    ((Score.negInf, ([] : List Nat)), board)

/-- The candidate list from which `best_move_for_computer` draws its final
`random.choice`; "for every outcome of the random tie-break" is quantification
over membership in this list (an empty list makes `random.choice` raise). -/
def best_move_candidates (board : Board) (comp human : Cell) : List Nat :=
  (best_move_st board comp human).1.2

/-! ## Specification-side notions

The definitions below do not come from the source: they formalise the spec's
game-theoretic vocabulary ("forced loss", "win forceable", "optimal play
draws") used by its guarantees, so that the search can be compared against
them. -/

/-- Number of blank cells. -/
def countE (b : Board) : Nat := b.count Cell.E

/-- A board whose marks all belong to the two playing sides. -/
def boardOf (p q : Cell) (b : Board) : Prop :=
  ∀ c ∈ b, c = p ∨ c = q ∨ c = Cell.E

instance (p q : Cell) (b : Board) : Decidable (boardOf p q b) :=
  List.decidableBAll _ b

/-- Modelled from the spec: the game-theoretic value of a position for side
`p` against side `q` under optimal play by both — `1` if the side to move
(`p` when `pToMove`, else `q`) can force a `p` win, `-1` if a `q` win is
forced, `0` for a draw.  `fuel` only drives the recursion; any
`fuel > countE b` gives the true value. -/
def bestOutcome : Nat → Board → Cell → Cell → Bool → Int
  | 0, _, _, _, _ => 0
  | fuel+1, b, p, q, pToMove =>
    match check_winner b with
    | WinnerResult.mark m => if m = p then 1 else -1
    | WinnerResult.tie => 0
    | WinnerResult.ongoing =>
      if pToMove then
        ((available_moves b).map (fun m => bestOutcome fuel (b.set m p) p q false)).foldl max (-1)
      else
        ((available_moves b).map (fun m => bestOutcome fuel (b.set m q) p q true)).foldl min 1

/-- The blank cell completing the line `t` for mark `c`, when the other two
cells of `t` already hold `c`. -/
def line_threat (b : Board) (c : Cell) (t : Nat × Nat × Nat) : Option Nat :=
  if getc b t.1 == c && getc b t.2.1 == c && getc b t.2.2 == Cell.E then some t.2.2
  else if getc b t.1 == c && getc b t.2.1 == Cell.E && getc b t.2.2 == c then some t.2.1
  else if getc b t.1 == Cell.E && getc b t.2.1 == c && getc b t.2.2 == c then some t.1
  else none

/-- Squares where `c` completes a line immediately. -/
def winning_moves (b : Board) (c : Cell) : List Nat :=
  (wins.filterMap (line_threat b c)).dedup

/-- Moves that give `c` two simultaneous immediate winning threats. -/
def fork_moves (b : Board) (c : Cell) : List Nat :=
  (available_moves b).filter (fun m => 2 ≤ (winning_moves (b.set m c) c).length)

def corners : List Nat := [0, 2, 6, 8]

def edges : List Nat := [1, 3, 5, 7]

/-- Threat-creating moves for `me` whose resulting threats, when blocked by
`opp`, do not hand `opp` a fork. -/
def safe_threat_moves (b : Board) (me opp : Cell) : List Nat :=
  (available_moves b).filter (fun m =>
    let b2 := b.set m me
    decide (1 ≤ (winning_moves b2 me).length) &&
    (winning_moves b2 me).all (fun x => (winning_moves (b2.set x opp) opp).length < 2))

def first_free (b : Board) (l : List Nat) : Option Nat :=
  l.find? (fun m => getc b m == Cell.E)

/-- A rule-based tic-tac-toe strategy (win, block, fork, counter-fork,
center, opposite corner, corner, edge), used only as a certificate: the
checkers below verify exhaustively that it achieves a draw (or a win) from
the positions the claims need. -/
def strat (me opp : Cell) (b : Board) : Nat :=
  match winning_moves b me with
  | m :: _ => m
  | [] =>
  match winning_moves b opp with
  | m :: _ => m
  | [] =>
  match fork_moves b me with
  | m :: _ => m
  | [] =>
  match fork_moves b opp with
  | [f] =>
    (match safe_threat_moves b me opp with
     | m :: _ => m
     | [] => f)
  | _ :: _ :: _ =>
    (match safe_threat_moves b me opp with
     | m :: _ => m
     | [] => (available_moves b).headD 0)
  | [] =>
  if getc b 4 == Cell.E then 4
  else
  match corners.find? (fun c => getc b c == Cell.E && getc b (8 - c) == opp) with
  | some m => m
  | none =>
  match first_free b corners with
  | some m => m
  | none =>
  match first_free b edges with
  | some m => m
  | none => (available_moves b).headD 0

/-- Checks that side `p`, playing `stratP` on its turns, never loses against
every play of `q` (every branch ends in a draw or a `p` win). -/
def atLeastDraw (stratP : Board → Nat) : Nat → Board → Cell → Cell → Bool → Bool
  | 0, _, _, _, _ => false
  | fuel+1, b, p, q, pToMove =>
    match check_winner b with
    | WinnerResult.mark m => m == p
    | WinnerResult.tie => true
    | WinnerResult.ongoing =>
      if pToMove then
        let m := stratP b
        decide (m ∈ available_moves b) && atLeastDraw stratP fuel (b.set m p) p q false
      else
        (available_moves b).all (fun mv => atLeastDraw stratP fuel (b.set mv q) p q true)

/-- Checks that side `p`, playing `stratP` on its turns, wins against every
play of `q`. -/
def forcesWin (stratP : Board → Nat) : Nat → Board → Cell → Cell → Bool → Bool
  | 0, _, _, _, _ => false
  | fuel+1, b, p, q, pToMove =>
    match check_winner b with
    | WinnerResult.mark m => m == p
    | WinnerResult.tie => false
    | WinnerResult.ongoing =>
      if pToMove then
        let m := stratP b
        decide (m ∈ available_moves b) && forcesWin stratP fuel (b.set m p) p q false
      else
        (available_moves b).all (fun mv => forcesWin stratP fuel (b.set mv q) p q true)

/-- Alternating play in which both sides choose their moves with
`best_move_for_computer`, the currently moving side's tie-break being resolved
by an arbitrary `chooser` applied to the candidate list.  Stops on a terminal
board; `fuel` bounds the number of plies. -/
def playBoth (chooser : List Nat → Nat) : Nat → Board → Cell → Cell → Board
  | 0, b, _, _ => b
  | fuel+1, b, p, q =>
    match check_winner b with
    | WinnerResult.ongoing =>
        playBoth chooser fuel (b.set (chooser (best_move_candidates b p q)) p) q p
    | _ => b

/-- The empty starting board. -/
def emptyBoard : Board :=
  [Cell.E, Cell.E, Cell.E, Cell.E, Cell.E, Cell.E, Cell.E, Cell.E, Cell.E]

/-! ## Basic lemmas about the board primitives -/

lemma mem_available_iff {b : Board} {m : Nat} :
    m ∈ available_moves b ↔ b[m]? = some Cell.E := by
  unfold available_moves
  constructor
  · intro h
    rcases List.mem_map.1 h with ⟨⟨i, c⟩, hmem, rfl⟩
    rcases List.mem_filter.1 hmem with ⟨henum, hc⟩
    have hc' : c = Cell.E := by simpa using hc
    subst hc'
    exact (List.mk_mem_enum_iff_getElem?).1 henum
  · intro h
    exact List.mem_map.2 ⟨(m, Cell.E),
      List.mem_filter.2 ⟨(List.mk_mem_enum_iff_getElem?).2 h, by simp⟩, rfl⟩

lemma set_of_getElem? : ∀ (b : Board) (m : Nat) (c : Cell), b[m]? = some c → b.set m c = b
  | [], _, _, h => by simp at h
  | x :: xs, 0, c, h => by simp_all
  | x :: xs, m+1, c, h => by
    simp only [List.getElem?_cons_succ] at h
    simp [List.set, set_of_getElem? xs m c h]

lemma set_restore {b : Board} {m : Nat} (c : Cell) (h : b[m]? = some Cell.E) :
    (b.set m c).set m Cell.E = b := by
  rw [List.set_set]
  exact set_of_getElem? b m Cell.E h

lemma countE_set {b : Board} {m : Nat} {c : Cell} (h : b[m]? = some Cell.E) (hc : c ≠ Cell.E) :
    countE (b.set m c) + 1 = countE b := by
  induction b generalizing m with
  | nil => simp at h
  | cons x xs ih =>
    cases m with
    | zero =>
      simp only [List.getElem?_cons_zero, Option.some.injEq] at h
      subst h
      simp [countE, List.set, List.count_cons, hc]
    | succ m =>
      simp only [List.getElem?_cons_succ] at h
      have := ih h
      simp only [countE, List.set, List.count_cons] at *
      omega

lemma length_available {b : Board} : (available_moves b).length ≤ b.length := by
  unfold available_moves
  calc ((b.enum.filter (fun p => p.2 == Cell.E)).map Prod.fst).length
      = (b.enum.filter (fun p => p.2 == Cell.E)).length := List.length_map _ _
    _ ≤ b.enum.length := List.length_filter_le _ _
    _ = b.length := List.enum_length

lemma available_ne_nil_of_memE {b : Board} (h : Cell.E ∈ b) :
    available_moves b ≠ [] := by
  rcases List.get_of_mem h with ⟨⟨i, hi⟩, hget⟩
  have : i ∈ available_moves b := by
    rw [mem_available_iff, List.getElem?_eq_getElem hi]
    simp [← hget, List.get_eq_getElem]
  intro hnil
  rw [hnil] at this
  simp at this

lemma memE_of_available {b : Board} {m : Nat} (h : m ∈ available_moves b) :
    Cell.E ∈ b := by
  rw [mem_available_iff] at h
  exact List.getElem?_mem h

/-! ## The search's place/recurse/undo discipline restores the board -/

lemma foldl_snd_fixed {σ : Type} (f : (σ × Board) → Nat → (σ × Board)) (b : Board) :
    ∀ (l : List Nat), (∀ s m, m ∈ l → (f (s, b) m).2 = b) →
    ∀ s, (l.foldl f (s, b)).2 = b := by
  intro l
  induction l with
  | nil => intro _ s; rfl
  | cons m ms ih =>
    intro hf s
    have h2 : f (s, b) m = ((f (s, b) m).1, b) := by
      have h3 := hf s m (List.mem_cons_self m ms)
      calc f (s, b) m = ((f (s, b) m).1, (f (s, b) m).2) := rfl
        _ = ((f (s, b) m).1, b) := by rw [h3]
    rw [List.foldl_cons, h2]
    exact ih (fun s' m' hm' => hf s' m' (List.mem_cons_of_mem m hm')) _

lemma foldl_fst_pure {σ : Type} (f : (σ × Board) → Nat → (σ × Board)) (g : σ → Nat → σ)
    (b : Board) : ∀ (l : List Nat), (∀ s m, m ∈ l → f (s, b) m = (g s m, b)) →
    ∀ s, (l.foldl f (s, b)).1 = l.foldl g s := by
  intro l
  induction l with
  | nil => intro _ s; rfl
  | cons m ms ih =>
    intro hf s
    rw [List.foldl_cons, hf s m (List.mem_cons_self m ms), List.foldl_cons]
    exact ih (fun s' m' hm' => hf s' m' (List.mem_cons_of_mem m hm')) _

/-- Every speculative placement inside `minimax` is undone: the board returned
is the board passed in. -/
lemma minimax_st_snd : ∀ (fuel : Nat) (b : Board) (d : Nat) (mx : Bool) (p o : Cell),
    (minimax_st fuel b d mx p o).2 = b := by
  intro fuel
  induction fuel with
  | zero => intro b d mx p o; rfl
  | succ fuel ih =>
    intro b d mx p o
    show (minimax_st (fuel+1) b d mx p o).2 = b
    simp only [minimax_st]
    split
    · rfl
    split
    · rfl
    split
    · rfl
    split
    · refine foldl_snd_fixed _ b _ (fun s m hm => ?_) _
      simp only
      rw [ih]
      exact set_restore p (mem_available_iff.1 hm)
    · refine foldl_snd_fixed _ b _ (fun s m hm => ?_) _
      simp only
      rw [ih]
      exact set_restore o (mem_available_iff.1 hm)

/-! ## Functional characterisation of the search -/

lemma minimax_mark_p {fuel : Nat} {b : Board} {d : Nat} {mx : Bool} {p o : Cell}
    (h : check_winner b = WinnerResult.mark p) :
    minimax (fuel+1) b d mx p o = Score.int (10 - (d : Int)) := by
  unfold minimax
  simp only [minimax_st, h]
  simp

lemma minimax_mark_o {fuel : Nat} {b : Board} {d : Nat} {mx : Bool} {p o : Cell}
    (hne : p ≠ o) (h : check_winner b = WinnerResult.mark o) :
    minimax (fuel+1) b d mx p o = Score.int (-10 + (d : Int)) := by
  unfold minimax
  simp only [minimax_st, h, WinnerResult.mark.injEq]
  rw [if_neg (fun hc => hne hc.symm)]
  simp

lemma minimax_tie {fuel : Nat} {b : Board} {d : Nat} {mx : Bool} {p o : Cell}
    (h : check_winner b = WinnerResult.tie) :
    minimax (fuel+1) b d mx p o = Score.int 0 := by
  unfold minimax
  simp only [minimax_st, h]
  simp

lemma minimax_succ_max {fuel : Nat} {b : Board} {d : Nat} {p o : Cell}
    (h : check_winner b = WinnerResult.ongoing) :
    minimax (fuel+1) b d true p o =
      (available_moves b).foldl
        (fun s m => Score.maxS s (minimax fuel (b.set m p) (d+1) false p o))
        Score.negInf := by
  unfold minimax
  simp only [minimax_st, h]
  rw [if_neg (by simp), if_neg (by simp), if_neg (by simp), if_pos trivial]
  refine foldl_fst_pure _ _ b _ (fun s m hm => ?_) _
  simp only
  rw [minimax_st_snd, set_restore p (mem_available_iff.1 hm)]

lemma minimax_succ_min {fuel : Nat} {b : Board} {d : Nat} {p o : Cell}
    (h : check_winner b = WinnerResult.ongoing) :
    minimax (fuel+1) b d false p o =
      (available_moves b).foldl
        (fun s m => Score.minS s (minimax fuel (b.set m o) (d+1) true p o))
        Score.posInf := by
  unfold minimax
  simp only [minimax_st, h]
  rw [if_neg (by simp), if_neg (by simp), if_neg (by simp), if_neg (by simp)]
  refine foldl_fst_pure _ _ b _ (fun s m hm => ?_) _
  simp only
  rw [minimax_st_snd, set_restore o (mem_available_iff.1 hm)]

/-! ## Facts about check_winner -/

lemma getc_mem {b : Board} {i : Nat} (h : getc b i ≠ Cell.E) : getc b i ∈ b := by
  unfold getc at *
  rw [List.getD_eq_getElem?_getD] at *
  cases hbi : b[i]? with
  | none => rw [hbi] at h; simp at h
  | some c => simpa using List.getElem?_mem hbi

lemma check_winner_mark_mem {b : Board} {m : Cell}
    (h : check_winner b = WinnerResult.mark m) : m ∈ b ∧ m ≠ Cell.E := by
  unfold check_winner at h
  cases hf : wins.find? (lineWin b) with
  | none =>
    rw [hf] at h
    by_cases hE : Cell.E ∈ b <;> simp [hE] at h
  | some t =>
    rw [hf] at h
    have hm : getc b t.1 = m := by simpa using h
    have ht := List.find?_some hf
    have hne : getc b t.1 ≠ Cell.E := by
      unfold lineWin at ht
      simp only [Bool.and_eq_true, bne_iff_ne] at ht
      exact ht.2
    subst hm
    exact ⟨getc_mem hne, hne⟩

lemma check_winner_mark_cases {p q : Cell} {b : Board} (hb : boardOf p q b) {m : Cell}
    (h : check_winner b = WinnerResult.mark m) : m = p ∨ m = q := by
  obtain ⟨hmem, hne⟩ := check_winner_mark_mem h
  rcases hb m hmem with h1 | h1 | h1
  · exact Or.inl h1
  · exact Or.inr h1
  · exact absurd h1 hne

lemma check_winner_ongoing_memE {b : Board} (h : check_winner b = WinnerResult.ongoing) :
    Cell.E ∈ b := by
  unfold check_winner at h
  cases hf : wins.find? (lineWin b) with
  | none =>
    rw [hf] at h
    by_cases hE : Cell.E ∈ b
    · exact hE
    · simp [hE] at h
  | some t => rw [hf] at h; simp at h

lemma boardOf_set {p q : Cell} {b : Board} (h : boardOf p q b) {c : Cell}
    (hc : c = p ∨ c = q ∨ c = Cell.E) (m : Nat) : boardOf p q (b.set m c) := by
  intro x hx
  rcases List.mem_or_eq_of_mem_set hx with h1 | rfl
  · exact h x h1
  · exact hc

/-! ## Score arithmetic and fold helpers -/

/-- The integer carried by a finite score (0 for the infinities; every score
produced by the search on a well-formed call is finite). -/
def toInt : Score → Int
  | Score.int s => s
  | _ => 0

lemma maxS_negInf_int (a : Int) : Score.maxS Score.negInf (Score.int a) = Score.int a := rfl

lemma minS_posInf_int (a : Int) : Score.minS Score.posInf (Score.int a) = Score.int a := rfl

lemma maxS_int (a b : Int) : Score.maxS (Score.int a) (Score.int b) = Score.int (max a b) := by
  unfold Score.maxS Score.blt
  by_cases h : a < b
  · simp [h, max_eq_right (le_of_lt h)]
  · simp [h, max_eq_left (le_of_not_lt h)]

lemma minS_int (a b : Int) : Score.minS (Score.int a) (Score.int b) = Score.int (min a b) := by
  unfold Score.minS Score.blt
  by_cases h : b < a
  · simp [h, min_eq_right (le_of_lt h)]
  · simp [h, min_eq_left (le_of_not_lt h)]

lemma score_trichotomy (a b : Score) :
    Score.blt a b = true ∨ a = b ∨ Score.blt b a = true := by
  cases a <;> cases b <;> simp [Score.blt] <;> omega

lemma blt_int_iff {a b : Int} : Score.blt (Score.int a) (Score.int b) = true ↔ a < b := by
  simp [Score.blt]

lemma le_foldl_max_init : ∀ (l : List Int) (a : Int), a ≤ l.foldl max a := by
  intro l
  induction l with
  | nil => intro a; exact le_refl a
  | cons x xs ih => intro a; exact le_trans (le_max_left a x) (ih (max a x))

lemma le_foldl_max_mem : ∀ (l : List Int) (a x : Int), x ∈ l → x ≤ l.foldl max a := by
  intro l
  induction l with
  | nil => intro a x hx; simp at hx
  | cons y ys ih =>
    intro a x hx
    rcases List.mem_cons.1 hx with rfl | hx'
    · exact le_trans (le_max_right a x) (le_foldl_max_init ys (max a x))
    · exact ih (max a y) x hx'

lemma foldl_max_le : ∀ (l : List Int) (a c : Int), a ≤ c → (∀ x ∈ l, x ≤ c) →
    l.foldl max a ≤ c := by
  intro l
  induction l with
  | nil => intro a c ha _; exact ha
  | cons y ys ih =>
    intro a c ha hl
    exact ih _ c (max_le ha (hl y (List.mem_cons_self y ys)))
      (fun x hx => hl x (List.mem_cons_of_mem y hx))

lemma foldl_min_le_init : ∀ (l : List Int) (a : Int), l.foldl min a ≤ a := by
  intro l
  induction l with
  | nil => intro a; exact le_refl a
  | cons x xs ih => intro a; exact le_trans (ih (min a x)) (min_le_left a x)

lemma foldl_min_le_mem : ∀ (l : List Int) (a x : Int), x ∈ l → l.foldl min a ≤ x := by
  intro l
  induction l with
  | nil => intro a x hx; simp at hx
  | cons y ys ih =>
    intro a x hx
    rcases List.mem_cons.1 hx with rfl | hx'
    · exact le_trans (foldl_min_le_init ys (min a x)) (min_le_right a x)
    · exact ih (min a y) x hx'

lemma le_foldl_min : ∀ (l : List Int) (a c : Int), c ≤ a → (∀ x ∈ l, c ≤ x) →
    c ≤ l.foldl min a := by
  intro l
  induction l with
  | nil => intro a c ha _; exact ha
  | cons y ys ih =>
    intro a c ha hl
    exact ih _ c (le_min ha (hl y (List.mem_cons_self y ys)))
      (fun x hx => hl x (List.mem_cons_of_mem y hx))

lemma foldl_max_neg : ∀ (l : List Int) (a : Int),
    (l.map (fun x => -x)).foldl max (-a) = -(l.foldl min a) := by
  intro l
  induction l with
  | nil => intro a; rfl
  | cons x xs ih =>
    intro a
    simp only [List.map_cons, List.foldl_cons, max_neg_neg]
    exact ih (min a x)

lemma foldl_min_neg : ∀ (l : List Int) (a : Int),
    (l.map (fun x => -x)).foldl min (-a) = -(l.foldl max a) := by
  intro l
  induction l with
  | nil => intro a; rfl
  | cons x xs ih =>
    intro a
    simp only [List.map_cons, List.foldl_cons, min_neg_neg]
    exact ih (max a x)

/-- Invariant carried along the maximising fold: the running minimax score is
a finite integer whose sign classifies the running game-theoretic outcome. -/
lemma fold_class_max_go (lo hi : Int) (f g : Nat → Int) :
    ∀ (l : List Nat),
    (∀ m ∈ l, (lo ≤ f m ∧ f m ≤ hi) ∧ (0 < f m ↔ g m = 1) ∧ (f m < 0 ↔ g m = -1) ∧
      (-1 ≤ g m ∧ g m ≤ 1)) →
    ∀ (S O : Int), lo ≤ S → S ≤ hi → (0 < S ↔ O = 1) → (S < 0 ↔ O = -1) → -1 ≤ O → O ≤ 1 →
    ∃ S2 O2,
      l.foldl (fun s m => Score.maxS s (Score.int (f m))) (Score.int S) = Score.int S2 ∧
      (l.map g).foldl max O = O2 ∧
      lo ≤ S2 ∧ S2 ≤ hi ∧ (0 < S2 ↔ O2 = 1) ∧ (S2 < 0 ↔ O2 = -1) ∧ -1 ≤ O2 ∧ O2 ≤ 1 := by
  intro l
  induction l with
  | nil =>
    intro _ S O h1 h2 h3 h4 h5 h6
    exact ⟨S, O, rfl, rfl, h1, h2, h3, h4, h5, h6⟩
  | cons m ms ih =>
    intro hl S O h1 h2 h3 h4 h5 h6
    obtain ⟨⟨hf1, hf2⟩, hc1, hc2, hg1, hg2⟩ := hl m (List.mem_cons_self m ms)
    simp only [List.foldl_cons, List.map_cons, maxS_int]
    refine ih (fun x hx => hl x (List.mem_cons_of_mem m hx)) (max S (f m)) (max O (g m))
      (le_trans h1 (le_max_left _ _)) (max_le h2 hf2) ?_ ?_ (le_trans h5 (le_max_left _ _))
      (max_le h6 hg2)
    · rcases max_cases S (f m) with ⟨hS, hS2⟩ | ⟨hS, hS2⟩ <;>
        rcases max_cases O (g m) with ⟨hO, hO2⟩ | ⟨hO, hO2⟩ <;> rw [hS, hO] <;> omega
    · rcases max_cases S (f m) with ⟨hS, hS2⟩ | ⟨hS, hS2⟩ <;>
        rcases max_cases O (g m) with ⟨hO, hO2⟩ | ⟨hO, hO2⟩ <;> rw [hS, hO] <;> omega

lemma fold_class_max (lo hi : Int) (f g : Nat → Int) (l : List Nat) (hne : l ≠ [])
    (hl : ∀ m ∈ l, (lo ≤ f m ∧ f m ≤ hi) ∧ (0 < f m ↔ g m = 1) ∧ (f m < 0 ↔ g m = -1) ∧
      (-1 ≤ g m ∧ g m ≤ 1)) :
    ∃ S2 O2,
      l.foldl (fun s m => Score.maxS s (Score.int (f m))) Score.negInf = Score.int S2 ∧
      (l.map g).foldl max (-1) = O2 ∧
      lo ≤ S2 ∧ S2 ≤ hi ∧ (0 < S2 ↔ O2 = 1) ∧ (S2 < 0 ↔ O2 = -1) ∧ -1 ≤ O2 ∧ O2 ≤ 1 := by
  cases l with
  | nil => cases hne rfl
  | cons m ms =>
    obtain ⟨⟨hf1, hf2⟩, hc1, hc2, hg1, hg2⟩ := hl m (List.mem_cons_self m ms)
    simp only [List.foldl_cons, List.map_cons, maxS_negInf_int]
    rw [max_eq_right hg1]
    exact fold_class_max_go lo hi f g ms (fun x hx => hl x (List.mem_cons_of_mem m hx))
      (f m) (g m) hf1 hf2 hc1 hc2 hg1 hg2

lemma fold_class_min_go (lo hi : Int) (f g : Nat → Int) :
    ∀ (l : List Nat),
    (∀ m ∈ l, (lo ≤ f m ∧ f m ≤ hi) ∧ (0 < f m ↔ g m = 1) ∧ (f m < 0 ↔ g m = -1) ∧
      (-1 ≤ g m ∧ g m ≤ 1)) →
    ∀ (S O : Int), lo ≤ S → S ≤ hi → (0 < S ↔ O = 1) → (S < 0 ↔ O = -1) → -1 ≤ O → O ≤ 1 →
    ∃ S2 O2,
      l.foldl (fun s m => Score.minS s (Score.int (f m))) (Score.int S) = Score.int S2 ∧
      (l.map g).foldl min O = O2 ∧
      lo ≤ S2 ∧ S2 ≤ hi ∧ (0 < S2 ↔ O2 = 1) ∧ (S2 < 0 ↔ O2 = -1) ∧ -1 ≤ O2 ∧ O2 ≤ 1 := by
  intro l
  induction l with
  | nil =>
    intro _ S O h1 h2 h3 h4 h5 h6
    exact ⟨S, O, rfl, rfl, h1, h2, h3, h4, h5, h6⟩
  | cons m ms ih =>
    intro hl S O h1 h2 h3 h4 h5 h6
    obtain ⟨⟨hf1, hf2⟩, hc1, hc2, hg1, hg2⟩ := hl m (List.mem_cons_self m ms)
    simp only [List.foldl_cons, List.map_cons, minS_int]
    refine ih (fun x hx => hl x (List.mem_cons_of_mem m hx)) (min S (f m)) (min O (g m))
      (le_min h1 hf1) (le_trans (min_le_left _ _) h2) ?_ ?_ (le_min h5 hg1)
      (le_trans (min_le_left _ _) h6)
    · rcases min_cases S (f m) with ⟨hS, hS2⟩ | ⟨hS, hS2⟩ <;>
        rcases min_cases O (g m) with ⟨hO, hO2⟩ | ⟨hO, hO2⟩ <;> rw [hS, hO] <;> omega
    · rcases min_cases S (f m) with ⟨hS, hS2⟩ | ⟨hS, hS2⟩ <;>
        rcases min_cases O (g m) with ⟨hO, hO2⟩ | ⟨hO, hO2⟩ <;> rw [hS, hO] <;> omega

lemma fold_class_min (lo hi : Int) (f g : Nat → Int) (l : List Nat) (hne : l ≠ [])
    (hl : ∀ m ∈ l, (lo ≤ f m ∧ f m ≤ hi) ∧ (0 < f m ↔ g m = 1) ∧ (f m < 0 ↔ g m = -1) ∧
      (-1 ≤ g m ∧ g m ≤ 1)) :
    ∃ S2 O2,
      l.foldl (fun s m => Score.minS s (Score.int (f m))) Score.posInf = Score.int S2 ∧
      (l.map g).foldl min 1 = O2 ∧
      lo ≤ S2 ∧ S2 ≤ hi ∧ (0 < S2 ↔ O2 = 1) ∧ (S2 < 0 ↔ O2 = -1) ∧ -1 ≤ O2 ∧ O2 ≤ 1 := by
  cases l with
  | nil => cases hne rfl
  | cons m ms =>
    obtain ⟨⟨hf1, hf2⟩, hc1, hc2, hg1, hg2⟩ := hl m (List.mem_cons_self m ms)
    simp only [List.foldl_cons, List.map_cons, minS_posInf_int]
    rw [min_eq_right hg2]
    exact fold_class_min_go lo hi f g ms (fun x hx => hl x (List.mem_cons_of_mem m hx))
      (f m) (g m) hf1 hf2 hc1 hc2 hg1 hg2

/-! ## Facts about the game value -/

lemma bestOutcome_mark {fuel : Nat} {b : Board} {p q : Cell} {tm : Bool} {m : Cell}
    (h : check_winner b = WinnerResult.mark m) :
    bestOutcome (fuel+1) b p q tm = if m = p then 1 else -1 := by
  simp only [bestOutcome, h]

lemma bestOutcome_tie {fuel : Nat} {b : Board} {p q : Cell} {tm : Bool}
    (h : check_winner b = WinnerResult.tie) :
    bestOutcome (fuel+1) b p q tm = 0 := by
  simp only [bestOutcome, h]

lemma bestOutcome_ongoing_max {fuel : Nat} {b : Board} {p q : Cell}
    (h : check_winner b = WinnerResult.ongoing) :
    bestOutcome (fuel+1) b p q true =
      ((available_moves b).map (fun m => bestOutcome fuel (b.set m p) p q false)).foldl
        max (-1) := by
  simp only [bestOutcome, h, if_pos]

lemma bestOutcome_ongoing_min {fuel : Nat} {b : Board} {p q : Cell}
    (h : check_winner b = WinnerResult.ongoing) :
    bestOutcome (fuel+1) b p q false =
      ((available_moves b).map (fun m => bestOutcome fuel (b.set m q) p q true)).foldl
        min 1 := by
  simp only [bestOutcome, h]
  simp

lemma bestOutcome_range : ∀ (fuel : Nat) (b : Board) (p q : Cell) (tm : Bool),
    -1 ≤ bestOutcome fuel b p q tm ∧ bestOutcome fuel b p q tm ≤ 1 := by
  intro fuel
  induction fuel with
  | zero => intro b p q tm; simp [bestOutcome]
  | succ fuel ih =>
    intro b p q tm
    cases hcw : check_winner b with
    | mark m => by_cases hm : m = p <;> simp [bestOutcome_mark hcw, hm]
    | tie => simp [bestOutcome_tie hcw]
    | ongoing =>
      cases tm
      · rw [bestOutcome_ongoing_min hcw]
        constructor
        · refine le_foldl_min _ _ _ (by omega) (fun x hx => ?_)
          rcases List.mem_map.1 hx with ⟨m, _, rfl⟩
          exact (ih _ p q true).1
        · exact foldl_min_le_init _ _
      · rw [bestOutcome_ongoing_max hcw]
        constructor
        · exact le_foldl_max_init _ _
        · refine foldl_max_le _ _ _ (by omega) (fun x hx => ?_)
          rcases List.mem_map.1 hx with ⟨m, _, rfl⟩
          exact (ih _ p q false).2

lemma bestOutcome_fuel : ∀ (f1 f2 : Nat) (b : Board) (p q : Cell) (tm : Bool),
    p ≠ Cell.E → q ≠ Cell.E → countE b < f1 → countE b < f2 →
    bestOutcome f1 b p q tm = bestOutcome f2 b p q tm := by
  intro f1
  induction f1 with
  | zero => intro f2 b p q tm _ _ h1 _; omega
  | succ f1 ih =>
    intro f2 b p q tm hp hq h1 h2
    cases f2 with
    | zero => omega
    | succ f2 =>
      cases hcw : check_winner b with
      | mark m => rw [bestOutcome_mark hcw, bestOutcome_mark hcw]
      | tie => rw [bestOutcome_tie hcw, bestOutcome_tie hcw]
      | ongoing =>
        cases tm
        · rw [bestOutcome_ongoing_min hcw, bestOutcome_ongoing_min hcw]
          congr 1
          refine List.map_congr_left (fun m hm => ?_)
          have hc := countE_set (mem_available_iff.1 hm) hq
          exact ih f2 _ p q true hp hq (by omega) (by omega)
        · rw [bestOutcome_ongoing_max hcw, bestOutcome_ongoing_max hcw]
          congr 1
          refine List.map_congr_left (fun m hm => ?_)
          have hc := countE_set (mem_available_iff.1 hm) hp
          exact ih f2 _ p q false hp hq (by omega) (by omega)

/-- Swapping the two sides negates the game value. -/
lemma bestOutcome_neg : ∀ (fuel : Nat) (b : Board) (p q : Cell) (tm : Bool),
    p ≠ q → boardOf p q b →
    bestOutcome fuel b p q tm = -(bestOutcome fuel b q p (!tm)) := by
  intro fuel
  induction fuel with
  | zero => intro b p q tm _ _; simp [bestOutcome]
  | succ fuel ih =>
    intro b p q tm hpq hb
    have hb' : boardOf q p b := fun c hc => by
      rcases hb c hc with h | h | h
      · exact Or.inr (Or.inl h)
      · exact Or.inl h
      · exact Or.inr (Or.inr h)
    cases hcw : check_winner b with
    | mark m =>
      rw [bestOutcome_mark hcw, bestOutcome_mark hcw]
      rcases check_winner_mark_cases hb hcw with rfl | rfl
      · rw [if_pos rfl, if_neg (fun hc => hpq hc)]
        omega
      · rw [if_neg (fun hc => hpq hc.symm), if_pos rfl]
    | tie =>
      rw [bestOutcome_tie hcw, bestOutcome_tie hcw]
      omega
    | ongoing =>
      cases tm
      · rw [bestOutcome_ongoing_min hcw]
        have : (!false) = true := rfl
        rw [this, bestOutcome_ongoing_max hcw]
        have hmap : (available_moves b).map (fun m => bestOutcome fuel (b.set m q) p q true) =
            ((available_moves b).map
              (fun m => bestOutcome fuel (b.set m q) q p false)).map (fun x => -x) := by
          rw [List.map_map]
          refine List.map_congr_left (fun m hm => ?_)
          have := ih (b.set m q) p q true hpq (boardOf_set hb (Or.inr (Or.inl rfl)) m)
          simpa using this
        rw [hmap]
        have h2 := foldl_min_neg
          ((available_moves b).map (fun m => bestOutcome fuel (b.set m q) q p false)) (-1)
        norm_num at h2
        rw [List.map_map]
        exact h2
      · rw [bestOutcome_ongoing_max hcw]
        have : (!true) = false := rfl
        rw [this, bestOutcome_ongoing_min hcw]
        have hmap : (available_moves b).map (fun m => bestOutcome fuel (b.set m p) p q false) =
            ((available_moves b).map
              (fun m => bestOutcome fuel (b.set m p) q p true)).map (fun x => -x) := by
          rw [List.map_map]
          refine List.map_congr_left (fun m hm => ?_)
          have := ih (b.set m p) p q false hpq (boardOf_set hb (Or.inl rfl) m)
          simpa using this
        rw [hmap]
        exact foldl_max_neg
          ((available_moves b).map (fun m => bestOutcome fuel (b.set m p) q p true)) 1

/-! ## The minimax score computes the game value -/

/-- On a well-formed position (two distinct real marks, enough fuel, depth
budget respected) `minimax` returns a finite integer score bounded by the
depth bias whose sign is exactly the game-theoretic value: positive iff the
maximising side forces a win, negative iff the minimising side forces a
win. -/
lemma minimax_bridge : ∀ (fuel : Nat) (b : Board) (d : Nat) (mx : Bool) (p q : Cell),
    p ≠ q → p ≠ Cell.E → q ≠ Cell.E → boardOf p q b →
    countE b < fuel → d + countE b ≤ 9 →
    ∃ s : Int, minimax fuel b d mx p q = Score.int s ∧
      (-10 + (d : Int) ≤ s) ∧ (s ≤ 10 - (d : Int)) ∧
      (0 < s ↔ bestOutcome fuel b p q mx = 1) ∧
      (s < 0 ↔ bestOutcome fuel b p q mx = -1) := by
  intro fuel
  induction fuel with
  | zero => intro b d mx p q _ _ _ _ h1 _; omega
  | succ fuel ih =>
    intro b d mx p q hpq hp hq hb hcnt hd
    cases hcw : check_winner b with
    | mark m =>
      rcases check_winner_mark_cases hb hcw with rfl | rfl
      · refine ⟨10 - (d : Int), minimax_mark_p hcw, by omega, by omega, ?_, ?_⟩ <;>
          rw [bestOutcome_mark hcw, if_pos rfl] <;> omega
      · refine ⟨-10 + (d : Int), minimax_mark_o hpq hcw, by omega, by omega, ?_, ?_⟩ <;>
          rw [bestOutcome_mark hcw, if_neg (fun hc => hpq hc.symm)] <;> omega
    | tie =>
      refine ⟨0, minimax_tie hcw, by omega, by omega, ?_, ?_⟩ <;>
        rw [bestOutcome_tie hcw] <;> omega
    | ongoing =>
      have hE := check_winner_ongoing_memE hcw
      have havail := available_ne_nil_of_memE hE
      cases mx
      · -- minimising node: the opponent `q` moves
        rw [minimax_succ_min hcw, bestOutcome_ongoing_min hcw]
        have hpt : ∀ m ∈ available_moves b,
            ((-10 + (d : Int) ≤ toInt (minimax fuel (b.set m q) (d+1) true p q) ∧
              toInt (minimax fuel (b.set m q) (d+1) true p q) ≤ 10 - (d : Int)) ∧
            (0 < toInt (minimax fuel (b.set m q) (d+1) true p q) ↔
              bestOutcome fuel (b.set m q) p q true = 1) ∧
            (toInt (minimax fuel (b.set m q) (d+1) true p q) < 0 ↔
              bestOutcome fuel (b.set m q) p q true = -1) ∧
            (-1 ≤ bestOutcome fuel (b.set m q) p q true ∧
              bestOutcome fuel (b.set m q) p q true ≤ 1)) ∧
            minimax fuel (b.set m q) (d+1) true p q =
              Score.int (toInt (minimax fuel (b.set m q) (d+1) true p q)) := by
          intro m hm
          have hcq := countE_set (mem_available_iff.1 hm) hq
          obtain ⟨s, heq, hlo, hhi, hc1, hc2⟩ :=
            ih (b.set m q) (d+1) true p q hpq hp hq
              (boardOf_set hb (Or.inr (Or.inl rfl)) m) (by omega) (by omega)
          rw [heq]
          refine ⟨⟨⟨by simp [toInt]; omega, by simp [toInt]; omega⟩,
            by simpa [toInt] using hc1, by simpa [toInt] using hc2,
            bestOutcome_range fuel _ p q true⟩, rfl⟩
        have hrew : (available_moves b).foldl
            (fun s m => Score.minS s (minimax fuel (b.set m q) (d+1) true p q))
            Score.posInf =
            (available_moves b).foldl
            (fun s m => Score.minS s
              (Score.int (toInt (minimax fuel (b.set m q) (d+1) true p q))))
            Score.posInf := by
          refine List.foldl_ext _ _ _ (fun s m hm => ?_)
          rw [← (hpt m hm).2]
        obtain ⟨S2, O2, hS, hO, hlo2, hhi2, hi1, hi2, _, _⟩ :=
          fold_class_min (-10 + (d : Int)) (10 - (d : Int))
            (fun m => toInt (minimax fuel (b.set m q) (d+1) true p q))
            (fun m => bestOutcome fuel (b.set m q) p q true)
            (available_moves b) havail (fun m hm => (hpt m hm).1)
        refine ⟨S2, by rw [hrew]; exact hS, hlo2, hhi2, ?_, ?_⟩
        · rw [hO]; exact hi1
        · rw [hO]; exact hi2
      · -- maximising node: the player `p` moves
        rw [minimax_succ_max hcw, bestOutcome_ongoing_max hcw]
        have hpt : ∀ m ∈ available_moves b,
            ((-10 + (d : Int) ≤ toInt (minimax fuel (b.set m p) (d+1) false p q) ∧
              toInt (minimax fuel (b.set m p) (d+1) false p q) ≤ 10 - (d : Int)) ∧
            (0 < toInt (minimax fuel (b.set m p) (d+1) false p q) ↔
              bestOutcome fuel (b.set m p) p q false = 1) ∧
            (toInt (minimax fuel (b.set m p) (d+1) false p q) < 0 ↔
              bestOutcome fuel (b.set m p) p q false = -1) ∧
            (-1 ≤ bestOutcome fuel (b.set m p) p q false ∧
              bestOutcome fuel (b.set m p) p q false ≤ 1)) ∧
            minimax fuel (b.set m p) (d+1) false p q =
              Score.int (toInt (minimax fuel (b.set m p) (d+1) false p q)) := by
          intro m hm
          have hcq := countE_set (mem_available_iff.1 hm) hp
          obtain ⟨s, heq, hlo, hhi, hc1, hc2⟩ :=
            ih (b.set m p) (d+1) false p q hpq hp hq
              (boardOf_set hb (Or.inl rfl) m) (by omega) (by omega)
          rw [heq]
          refine ⟨⟨⟨by simp [toInt]; omega, by simp [toInt]; omega⟩,
            by simpa [toInt] using hc1, by simpa [toInt] using hc2,
            bestOutcome_range fuel _ p q false⟩, rfl⟩
        have hrew : (available_moves b).foldl
            (fun s m => Score.maxS s (minimax fuel (b.set m p) (d+1) false p q))
            Score.negInf =
            (available_moves b).foldl
            (fun s m => Score.maxS s
              (Score.int (toInt (minimax fuel (b.set m p) (d+1) false p q))))
            Score.negInf := by
          refine List.foldl_ext _ _ _ (fun s m hm => ?_)
          rw [← (hpt m hm).2]
        obtain ⟨S2, O2, hS, hO, hlo2, hhi2, hi1, hi2, _, _⟩ :=
          fold_class_max (-10 + (d : Int)) (10 - (d : Int))
            (fun m => toInt (minimax fuel (b.set m p) (d+1) false p q))
            (fun m => bestOutcome fuel (b.set m p) p q false)
            (available_moves b) havail (fun m hm => (hpt m hm).1)
        refine ⟨S2, by rw [hrew]; exact hS, hlo2, hhi2, ?_, ?_⟩
        · rw [hO]; exact hi1
        · rw [hO]; exact hi2

/-! ## Soundness of the strategy checkers -/

/-- A side that owns a strategy passing `atLeastDraw` has game value at least
a draw. -/
lemma atLeastDraw_sound : ∀ (fuel : Nat) (b : Board) (p q : Cell) (tm : Bool)
    (st : Board → Nat), p ≠ q → p ≠ Cell.E → q ≠ Cell.E → boardOf p q b →
    countE b < fuel →
    atLeastDraw st fuel b p q tm = true → 0 ≤ bestOutcome fuel b p q tm := by
  intro fuel
  induction fuel with
  | zero => intro b p q tm st _ _ _ _ h1 _; omega
  | succ fuel ih =>
    intro b p q tm st hpq hp hq hb hcnt hck
    cases hcw : check_winner b with
    | mark m =>
      simp [atLeastDraw, hcw] at hck
      rw [bestOutcome_mark hcw, if_pos hck]
      omega
    | tie => rw [bestOutcome_tie hcw]
    | ongoing =>
      cases tm
      · simp only [atLeastDraw, hcw, Bool.false_eq_true, if_false, List.all_eq_true] at hck
        rw [bestOutcome_ongoing_min hcw]
        refine le_foldl_min _ _ _ (by omega) (fun x hx => ?_)
        rcases List.mem_map.1 hx with ⟨m, hm, rfl⟩
        have hcq := countE_set (mem_available_iff.1 hm) hq
        exact ih (b.set m q) p q true st hpq hp hq
          (boardOf_set hb (Or.inr (Or.inl rfl)) m) (by omega) (hck m hm)
      · simp only [atLeastDraw, hcw, if_pos, Bool.and_eq_true, decide_eq_true_eq] at hck
        obtain ⟨hmem, hrec⟩ := hck
        rw [bestOutcome_ongoing_max hcw]
        have hcq := countE_set (mem_available_iff.1 hmem) hp
        have h0 : 0 ≤ bestOutcome fuel (b.set (st b) p) p q false :=
          ih (b.set (st b) p) p q false st hpq hp hq
            (boardOf_set hb (Or.inl rfl) (st b)) (by omega) hrec
        refine le_trans h0 (le_foldl_max_mem _ _ _ ?_)
        exact List.mem_map.2 ⟨st b, hmem, rfl⟩

/-- A side that owns a strategy passing `forcesWin` has winning game value. -/
lemma forcesWin_sound : ∀ (fuel : Nat) (b : Board) (p q : Cell) (tm : Bool)
    (st : Board → Nat), p ≠ q → p ≠ Cell.E → q ≠ Cell.E → boardOf p q b →
    countE b < fuel →
    forcesWin st fuel b p q tm = true → bestOutcome fuel b p q tm = 1 := by
  intro fuel
  induction fuel with
  | zero => intro b p q tm st _ _ _ _ h1 _; omega
  | succ fuel ih =>
    intro b p q tm st hpq hp hq hb hcnt hck
    cases hcw : check_winner b with
    | mark m =>
      simp [forcesWin, hcw] at hck
      rw [bestOutcome_mark hcw, if_pos hck]
    | tie => simp [forcesWin, hcw] at hck
    | ongoing =>
      cases tm
      · simp only [forcesWin, hcw, Bool.false_eq_true, if_false, List.all_eq_true] at hck
        rw [bestOutcome_ongoing_min hcw]
        have hge : (1 : Int) ≤
            ((available_moves b).map
              (fun m => bestOutcome fuel (b.set m q) p q true)).foldl min 1 := by
          refine le_foldl_min _ _ _ (by omega) (fun x hx => ?_)
          rcases List.mem_map.1 hx with ⟨m, hm, rfl⟩
          have hcq := countE_set (mem_available_iff.1 hm) hq
          rw [ih (b.set m q) p q true st hpq hp hq
            (boardOf_set hb (Or.inr (Or.inl rfl)) m) (by omega) (hck m hm)]
        have hle := foldl_min_le_init
          ((available_moves b).map (fun m => bestOutcome fuel (b.set m q) p q true)) 1
        omega
      · simp only [forcesWin, hcw, if_pos, Bool.and_eq_true, decide_eq_true_eq] at hck
        obtain ⟨hmem, hrec⟩ := hck
        rw [bestOutcome_ongoing_max hcw]
        have hcq := countE_set (mem_available_iff.1 hmem) hp
        have h1 : bestOutcome fuel (b.set (st b) p) p q false = 1 :=
          ih (b.set (st b) p) p q false st hpq hp hq
            (boardOf_set hb (Or.inl rfl) (st b)) (by omega) hrec
        have hge : (1 : Int) ≤
            ((available_moves b).map
              (fun m => bestOutcome fuel (b.set m p) p q false)).foldl max (-1) := by
          rw [← h1]
          exact le_foldl_max_mem _ _ _ (List.mem_map.2 ⟨st b, hmem, rfl⟩)
        have hle : ((available_moves b).map
            (fun m => bestOutcome fuel (b.set m p) p q false)).foldl max (-1) ≤ 1 := by
          refine foldl_max_le _ _ _ (by omega) (fun x hx => ?_)
          rcases List.mem_map.1 hx with ⟨m, _, rfl⟩
          exact (bestOutcome_range fuel _ p q false).2
        omega

/-- Every speculative placement inside `best_move_for_computer` is undone. -/
lemma best_move_st_snd (b : Board) (comp human : Cell) :
    (best_move_st b comp human).2 = b := by
  unfold best_move_st
  refine foldl_snd_fixed _ b _ (fun s m hm => ?_) _
  simp only
  rw [minimax_st_snd]
  have h := set_restore comp (mem_available_iff.1 hm)
  split
  · exact h
  split
  · exact h
  · exact h

/-! ## Characterisation of the candidate list -/

/-- The top-level loop of `best_move_for_computer`, freed of its board
threading. -/
lemma best_move_st_fst (b : Board) (comp human : Cell) :
    (best_move_st b comp human).1 =
      (available_moves b).foldl
        (fun acc move =>
          if Score.blt acc.1 (minimax 9 (b.set move comp) 0 false comp human) then
            (minimax 9 (b.set move comp) 0 false comp human, [move])
          else if minimax 9 (b.set move comp) 0 false comp human = acc.1 then
            (acc.1, acc.2 ++ [move])
          else acc)
        (Score.negInf, []) := by
  unfold best_move_st
  refine foldl_fst_pure _ _ b _ (fun s m hm => ?_) _
  simp only
  rw [minimax_st_snd, set_restore comp (mem_available_iff.1 hm)]
  unfold minimax
  by_cases h1 : Score.blt s.1 ((minimax_st 9 (b.set m comp) 0 false comp human).1) = true
  · simp [h1]
  · by_cases h2 : (minimax_st 9 (b.set m comp) 0 false comp human).1 = s.1
    · simp only [h1, h2]
      split
      · rfl
      · rfl
    · simp [h1, h2]

lemma blt_negInf_false (a : Score) : Score.blt a Score.negInf = false := by
  cases a <;> rfl

/-- Invariants of the best-score/candidate accumulation: every collected
candidate scores the running best, the running best is the maximum seen, the
candidates come from the processed moves, and processing a nonempty list
leaves a nonempty candidate list. -/
lemma bm_fold_spec (sc : Nat → Score) :
    ∀ (l : List Nat) (B : Score) (C : List Nat),
    (∀ m ∈ C, sc m = B) → (C = [] → B = Score.negInf) →
    (∀ m ∈ (l.foldl
        (fun acc move =>
          if Score.blt acc.1 (sc move) then (sc move, [move])
          else if sc move = acc.1 then (acc.1, acc.2 ++ [move])
          else acc) (B, C)).2,
      sc m = (l.foldl
        (fun acc move =>
          if Score.blt acc.1 (sc move) then (sc move, [move])
          else if sc move = acc.1 then (acc.1, acc.2 ++ [move])
          else acc) (B, C)).1) ∧
    ((l.foldl
        (fun acc move =>
          if Score.blt acc.1 (sc move) then (sc move, [move])
          else if sc move = acc.1 then (acc.1, acc.2 ++ [move])
          else acc) (B, C)).1 =
      l.foldl (fun s m => Score.maxS s (sc m)) B) ∧
    (∀ m ∈ (l.foldl
        (fun acc move =>
          if Score.blt acc.1 (sc move) then (sc move, [move])
          else if sc move = acc.1 then (acc.1, acc.2 ++ [move])
          else acc) (B, C)).2, m ∈ l ∨ m ∈ C) ∧
    ((C ≠ [] ∨ l ≠ []) → (l.foldl
        (fun acc move =>
          if Score.blt acc.1 (sc move) then (sc move, [move])
          else if sc move = acc.1 then (acc.1, acc.2 ++ [move])
          else acc) (B, C)).2 ≠ []) := by
  intro l
  induction l with
  | nil =>
    intro B C hC hCB
    refine ⟨hC, rfl, fun m hm => Or.inr hm, ?_⟩
    rintro (h | h)
    · exact h
    · exact absurd rfl h
  | cons m ms ih =>
    intro B C hC hCB
    simp only [List.foldl_cons]
    by_cases h1 : Score.blt B (sc m) = true
    · have hmax : Score.maxS B (sc m) = sc m := by unfold Score.maxS; rw [if_pos h1]
      rw [if_pos h1, hmax]
      obtain ⟨a, bspec, c, d⟩ := ih (sc m) [m]
        (by intro x hx; simp at hx; rw [hx]) (by simp)
      refine ⟨a, bspec, fun x hx => ?_, fun _ => d (Or.inl (by simp))⟩
      rcases c x hx with h | h
      · exact Or.inl (List.mem_cons_of_mem m h)
      · simp at h
        exact Or.inl (by simp [h])
    · by_cases h2 : sc m = B
      · have hmax : Score.maxS B (sc m) = B := by
          rw [h2]
          unfold Score.maxS
          split
          · rfl
          · rfl
        rw [if_neg (by simp [h1]), if_pos h2, hmax]
        obtain ⟨a, bspec, c, d⟩ := ih B (C ++ [m])
          (by
            intro x hx
            rcases List.mem_append.1 hx with h | h
            · exact hC x h
            · simp at h; rw [h, h2])
          (by simp)
        refine ⟨a, bspec, fun x hx => ?_, fun _ => d (Or.inl (by simp))⟩
        rcases c x hx with h | h
        · exact Or.inl (List.mem_cons_of_mem m h)
        · rcases List.mem_append.1 h with h | h
          · exact Or.inr h
          · simp at h
            exact Or.inl (by simp [h])
      · have hCne : C ≠ [] := by
          intro hnil
          have hB := hCB hnil
          rcases score_trichotomy B (sc m) with h | h | h
          · exact absurd h (by simp [h1])
          · exact h2 h.symm
          · rw [hB, blt_negInf_false] at h
            cases h
        have hmax : Score.maxS B (sc m) = B := by
          unfold Score.maxS
          rw [if_neg (by simp [h1])]
        rw [if_neg (by simp [h1]), if_neg h2, hmax]
        obtain ⟨a, bspec, c, d⟩ := ih B C hC (fun hnil => absurd hnil hCne)
        refine ⟨a, bspec, fun x hx => ?_, fun _ => d (Or.inl hCne)⟩
        rcases c x hx with h | h
        · exact Or.inl (List.mem_cons_of_mem m h)
        · exact Or.inr h

/-- Each candidate of `best_move_for_computer` is an available move whose
one-ply-deep minimax score equals the maximum over all available moves. -/
lemma candidates_spec (b : Board) (comp human : Cell) :
    (∀ m ∈ best_move_candidates b comp human, m ∈ available_moves b) ∧
    (available_moves b ≠ [] → best_move_candidates b comp human ≠ []) ∧
    (∀ m ∈ best_move_candidates b comp human,
      minimax 9 (b.set m comp) 0 false comp human =
      (available_moves b).foldl
        (fun s mv => Score.maxS s (minimax 9 (b.set mv comp) 0 false comp human))
        Score.negInf) := by
  obtain ⟨a, bspec, c, d⟩ :=
    bm_fold_spec (fun m => minimax 9 (b.set m comp) 0 false comp human)
      (available_moves b) Score.negInf [] (by intro x hx; simp at hx) (fun _ => rfl)
  unfold best_move_candidates
  rw [show (best_move_st b comp human).1.2 =
      ((available_moves b).foldl
        (fun acc move =>
          if Score.blt acc.1 (minimax 9 (b.set move comp) 0 false comp human) then
            (minimax 9 (b.set move comp) 0 false comp human, [move])
          else if minimax 9 (b.set move comp) 0 false comp human = acc.1 then
            (acc.1, acc.2 ++ [move])
          else acc)
        (Score.negInf, [])).2 from by rw [best_move_st_fst]]
  refine ⟨fun m hm => ?_, fun hne => d (Or.inr hne), fun m hm => ?_⟩
  · rcases c m hm with h | h
    · exact h
    · simp at h
  · rw [a m hm, ← best_move_st_fst]
    rw [best_move_st_fst]
    exact bspec

/-! ## Candidate moves preserve the game value -/

/-- A candidate of `best_move_for_computer` achieves, after being played, the
game value of the position it was chosen in: it wins when a win is forceable,
draws when a draw is the best achievable, and only loses when every move
loses. -/
lemma candidate_preserves_value {b : Board} {comp human : Cell} {m : Nat}
    (hne : comp ≠ human) (hcE : comp ≠ Cell.E) (hhE : human ≠ Cell.E)
    (hb : boardOf comp human b) (hcw : check_winner b = WinnerResult.ongoing)
    (hlen : countE b ≤ 9)
    (hm : m ∈ best_move_candidates b comp human) :
    bestOutcome (countE b) (b.set m comp) comp human false =
    bestOutcome (countE b + 1) b comp human true := by
  obtain ⟨hsub, hnonempty, hbest⟩ := candidates_spec b comp human
  have hmav : m ∈ available_moves b := hsub m hm
  have hE := check_winner_ongoing_memE hcw
  have havail := available_ne_nil_of_memE hE
  have hcnt1 : 0 < countE b := List.count_pos_iff.2 hE
  have hpt : ∀ mv ∈ available_moves b,
      ((-10 ≤ toInt (minimax 9 (b.set mv comp) 0 false comp human) ∧
        toInt (minimax 9 (b.set mv comp) 0 false comp human) ≤ 10) ∧
       (0 < toInt (minimax 9 (b.set mv comp) 0 false comp human) ↔
        bestOutcome 9 (b.set mv comp) comp human false = 1) ∧
       (toInt (minimax 9 (b.set mv comp) 0 false comp human) < 0 ↔
        bestOutcome 9 (b.set mv comp) comp human false = -1) ∧
       (-1 ≤ bestOutcome 9 (b.set mv comp) comp human false ∧
        bestOutcome 9 (b.set mv comp) comp human false ≤ 1)) ∧
      minimax 9 (b.set mv comp) 0 false comp human =
        Score.int (toInt (minimax 9 (b.set mv comp) 0 false comp human)) := by
    intro mv hmv
    have hcq := countE_set (mem_available_iff.1 hmv) hcE
    obtain ⟨s, heq, hlo, hhi, hc1, hc2⟩ :=
      minimax_bridge 9 (b.set mv comp) 0 false comp human hne hcE hhE
        (boardOf_set hb (Or.inl rfl) mv) (by omega) (by omega)
    rw [heq]
    refine ⟨⟨⟨by simp only [toInt]; omega, by simp only [toInt]; omega⟩,
      by simpa [toInt] using hc1, by simpa [toInt] using hc2,
      bestOutcome_range 9 _ comp human false⟩, rfl⟩
  obtain ⟨S2, O2, hS, hO, hlo2, hhi2, hi1, hi2, hOr1, hOr2⟩ :=
    fold_class_max (-10) 10
      (fun mv => toInt (minimax 9 (b.set mv comp) 0 false comp human))
      (fun mv => bestOutcome 9 (b.set mv comp) comp human false)
      (available_moves b) havail (fun mv hmv => (hpt mv hmv).1)
  have hrew : (available_moves b).foldl
      (fun s mv => Score.maxS s (minimax 9 (b.set mv comp) 0 false comp human))
      Score.negInf =
      (available_moves b).foldl
      (fun s mv => Score.maxS s
        (Score.int (toInt (minimax 9 (b.set mv comp) 0 false comp human))))
      Score.negInf := by
    refine List.foldl_ext _ _ _ (fun s mv hmv => ?_)
    rw [← (hpt mv hmv).2]
  have hscm : minimax 9 (b.set m comp) 0 false comp human = Score.int S2 := by
    rw [hbest m hm, hrew, hS]
  obtain ⟨⟨hbnd, hc1m, hc2m, hgm⟩, heqm⟩ := hpt m hmav
  have hsm : toInt (minimax 9 (b.set m comp) 0 false comp human) = S2 := by
    rw [hscm]
    rfl
  have hgO : bestOutcome 9 (b.set m comp) comp human false = O2 := by
    rw [hsm] at hc1m hc2m
    rcases hgm with ⟨hg1, hg2⟩
    omega
  have hcqm := countE_set (mem_available_iff.1 hmav) hcE
  have hLHS : bestOutcome (countE b) (b.set m comp) comp human false =
      bestOutcome 9 (b.set m comp) comp human false :=
    bestOutcome_fuel (countE b) 9 _ comp human false hcE hhE (by omega) (by omega)
  have hRHS : bestOutcome (countE b + 1) b comp human true = O2 := by
    rw [bestOutcome_ongoing_max hcw, ← hO]
    congr 1
    refine List.map_congr_left (fun mv hmv => ?_)
    have hcq := countE_set (mem_available_iff.1 hmv) hcE
    exact bestOutcome_fuel (countE b) 9 _ comp human false hcE hhE (by omega) (by omega)
  rw [hLHS, hgO, hRHS]

lemma boardOf_swap {p q : Cell} {b : Board} (h : boardOf p q b) : boardOf q p b := by
  intro c hc
  rcases h c hc with h1 | h1 | h1
  · exact Or.inr (Or.inl h1)
  · exact Or.inl h1
  · exact Or.inr (Or.inr h1)

/-! ## Concrete strategy certificates, checked exhaustively -/

set_option maxRecDepth 100000 in
set_option maxHeartbeats 4000000 in
lemma empty_draw_X :
    atLeastDraw (strat Cell.X Cell.O) 10 emptyBoard Cell.X Cell.O true = true := by decide

set_option maxRecDepth 100000 in
set_option maxHeartbeats 4000000 in
lemma empty_draw_O :
    atLeastDraw (strat Cell.O Cell.X) 10 emptyBoard Cell.O Cell.X false = true := by decide

/-- Tic-tac-toe is a draw: the empty board has game value 0. -/
lemma emptyBoard_value : bestOutcome 10 emptyBoard Cell.X Cell.O true = 0 := by
  have h1 : 0 ≤ bestOutcome 10 emptyBoard Cell.X Cell.O true :=
    atLeastDraw_sound 10 emptyBoard Cell.X Cell.O true (strat Cell.X Cell.O)
      (by decide) (by decide) (by decide) (by decide) (by decide) empty_draw_X
  have h2 : 0 ≤ bestOutcome 10 emptyBoard Cell.O Cell.X false :=
    atLeastDraw_sound 10 emptyBoard Cell.O Cell.X false (strat Cell.O Cell.X)
      (by decide) (by decide) (by decide) (by decide) (by decide) empty_draw_O
  have h3 := bestOutcome_neg 10 emptyBoard Cell.X Cell.O true (by decide) (by decide)
  rw [show (!true) = false from rfl] at h3
  omega

/-! ## Optimal play from a drawn position ends in a draw -/

lemma playBoth_drawn (ch : List Nat → Nat) (hch : ∀ l, l ≠ [] → ch l ∈ l) :
    ∀ (fuel : Nat) (b : Board) (p q : Cell), p ≠ q → p ≠ Cell.E → q ≠ Cell.E →
    boardOf p q b → countE b ≤ fuel → countE b ≤ 9 →
    bestOutcome (countE b + 1) b p q true = 0 →
    check_winner (playBoth ch fuel b p q) = WinnerResult.tie := by
  intro fuel
  induction fuel with
  | zero =>
    intro b p q hpq hp hq hb hcnt hc9 hval
    show check_winner b = WinnerResult.tie
    cases hcw : check_winner b with
    | mark m =>
      rw [bestOutcome_mark hcw] at hval
      by_cases hm : m = p
      · rw [if_pos hm] at hval; omega
      · rw [if_neg hm] at hval; omega
    | tie => rfl
    | ongoing =>
      have hE := check_winner_ongoing_memE hcw
      have : 0 < countE b := List.count_pos_iff.2 hE
      omega
  | succ fuel ih =>
    intro b p q hpq hp hq hb hcnt hc9 hval
    cases hcw : check_winner b with
    | mark m =>
      rw [bestOutcome_mark hcw] at hval
      by_cases hm : m = p
      · rw [if_pos hm] at hval; omega
      · rw [if_neg hm] at hval; omega
    | tie =>
      simp only [playBoth, hcw]
    | ongoing =>
      have hE := check_winner_ongoing_memE hcw
      have havail := available_ne_nil_of_memE hE
      have hcnt1 : 0 < countE b := List.count_pos_iff.2 hE
      have hcand := (candidates_spec b p q).2.1 havail
      have hmc : ch (best_move_candidates b p q) ∈ best_move_candidates b p q :=
        hch _ hcand
      have hmav : ch (best_move_candidates b p q) ∈ available_moves b :=
        (candidates_spec b p q).1 _ hmc
      have hpres := candidate_preserves_value hpq hp hq hb hcw hc9 hmc
      rw [hval] at hpres
      have hneg := bestOutcome_neg (countE b) (b.set (ch (best_move_candidates b p q)) p)
        p q false hpq (boardOf_set hb (Or.inl rfl) _)
      rw [show (!false) = true from rfl] at hneg
      have hcq := countE_set (mem_available_iff.1 hmav) hp
      have hchild : bestOutcome
          (countE (b.set (ch (best_move_candidates b p q)) p) + 1)
          (b.set (ch (best_move_candidates b p q)) p) q p true = 0 := by
        have : countE (b.set (ch (best_move_candidates b p q)) p) + 1 = countE b := hcq
        rw [this]
        omega
      simp only [playBoth, hcw]
      exact ih (b.set (ch (best_move_candidates b p q)) p) q p (Ne.symm hpq) hq hp
        (boardOf_swap (boardOf_set hb (Or.inl rfl) _)) (by omega) (by omega) hchild

/-! ## Values of the replies to an opening centre move -/

/-- Sandwich: if both sides hold drawing strategies, the position (O against
X, X to move) is worth a draw. -/
lemma value_zero_of_draws {b : Board} (hb : boardOf Cell.O Cell.X b)
    (hcnt : countE b < 9)
    (hdO : atLeastDraw (strat Cell.O Cell.X) 9 b Cell.O Cell.X false = true)
    (hdX : atLeastDraw (strat Cell.X Cell.O) 9 b Cell.X Cell.O true = true) :
    bestOutcome 9 b Cell.O Cell.X false = 0 := by
  have h1 : 0 ≤ bestOutcome 9 b Cell.O Cell.X false :=
    atLeastDraw_sound 9 b Cell.O Cell.X false (strat Cell.O Cell.X)
      (by decide) (by decide) (by decide) hb hcnt hdO
  have h2 : 0 ≤ bestOutcome 9 b Cell.X Cell.O true :=
    atLeastDraw_sound 9 b Cell.X Cell.O true (strat Cell.X Cell.O)
      (by decide) (by decide) (by decide) (boardOf_swap hb) hcnt hdX
  have h3 := bestOutcome_neg 9 b Cell.O Cell.X false (by decide) hb
  rw [show (!false) = true from rfl] at h3
  omega

/-- If X holds a winning strategy, the position (O against X, X to move) is a
forced loss for O. -/
lemma value_neg_of_win {b : Board} (hb : boardOf Cell.O Cell.X b)
    (hcnt : countE b < 9)
    (hwX : forcesWin (strat Cell.X Cell.O) 9 b Cell.X Cell.O true = true) :
    bestOutcome 9 b Cell.O Cell.X false = -1 := by
  have h1 : bestOutcome 9 b Cell.X Cell.O true = 1 :=
    forcesWin_sound 9 b Cell.X Cell.O true (strat Cell.X Cell.O)
      (by decide) (by decide) (by decide) (boardOf_swap hb) hcnt hwX
  have h3 := bestOutcome_neg 9 b Cell.O Cell.X false (by decide) hb
  rw [show (!false) = true from rfl] at h3
  omega

set_option maxRecDepth 100000 in
set_option maxHeartbeats 2000000 in
/-- After X opens in the centre, every corner reply by O is worth a draw. -/
lemma cornerO_value : ∀ c ∈ corners,
    bestOutcome 9 ((emptyBoard.set 4 Cell.X).set c Cell.O) Cell.O Cell.X false = 0 := by
  intro c hc
  fin_cases hc
  · exact value_zero_of_draws (by decide) (by decide) (by decide) (by decide)
  · exact value_zero_of_draws (by decide) (by decide) (by decide) (by decide)
  · exact value_zero_of_draws (by decide) (by decide) (by decide) (by decide)
  · exact value_zero_of_draws (by decide) (by decide) (by decide) (by decide)

set_option maxRecDepth 100000 in
set_option maxHeartbeats 2000000 in
/-- After X opens in the centre, every edge reply by O loses by force. -/
lemma edgeO_value : ∀ e ∈ edges,
    bestOutcome 9 ((emptyBoard.set 4 Cell.X).set e Cell.O) Cell.O Cell.X false = -1 := by
  intro e he
  fin_cases he
  · exact value_neg_of_win (by decide) (by decide) (by decide)
  · exact value_neg_of_win (by decide) (by decide) (by decide)
  · exact value_neg_of_win (by decide) (by decide) (by decide)
  · exact value_neg_of_win (by decide) (by decide) (by decide)

/-- Replying to a centre opening: the candidate list is nonempty and consists
of corner moves only. -/
lemma center_reply_core :
    best_move_candidates (emptyBoard.set 4 Cell.X) Cell.O Cell.X ≠ [] ∧
    ∀ m ∈ best_move_candidates (emptyBoard.set 4 Cell.X) Cell.O Cell.X,
      m ∈ corners ∧ m ∉ edges := by
  have hcw : check_winner (emptyBoard.set 4 Cell.X) = WinnerResult.ongoing := by decide
  have havail : available_moves (emptyBoard.set 4 Cell.X) = [0,1,2,3,5,6,7,8] := by decide
  have hcnt : countE (emptyBoard.set 4 Cell.X) = 8 := by decide
  have hchild : ∀ mv ∈ available_moves (emptyBoard.set 4 Cell.X),
      bestOutcome 8 ((emptyBoard.set 4 Cell.X).set mv Cell.O) Cell.O Cell.X false =
      bestOutcome 9 ((emptyBoard.set 4 Cell.X).set mv Cell.O) Cell.O Cell.X false := by
    intro mv hmv
    have hcq := countE_set (mem_available_iff.1 hmv) (show Cell.O ≠ Cell.E by decide)
    exact bestOutcome_fuel 8 9 _ _ _ false (by decide) (by decide) (by omega) (by omega)
  have hV : bestOutcome (8+1) (emptyBoard.set 4 Cell.X) Cell.O Cell.X true = 0 := by
    rw [bestOutcome_ongoing_max hcw]
    have hge : (0 : Int) ≤ ((available_moves (emptyBoard.set 4 Cell.X)).map
        (fun m => bestOutcome 8 ((emptyBoard.set 4 Cell.X).set m Cell.O)
          Cell.O Cell.X false)).foldl max (-1) := by
      have h0 : bestOutcome 8 ((emptyBoard.set 4 Cell.X).set 0 Cell.O)
          Cell.O Cell.X false = 0 := by
        rw [hchild 0 (by rw [havail]; simp)]
        exact cornerO_value 0 (by decide)
      rw [← h0]
      refine le_foldl_max_mem _ _ _ ?_
      exact List.mem_map.2 ⟨0, by rw [havail]; simp, rfl⟩
    have hle : ((available_moves (emptyBoard.set 4 Cell.X)).map
        (fun m => bestOutcome 8 ((emptyBoard.set 4 Cell.X).set m Cell.O)
          Cell.O Cell.X false)).foldl max (-1) ≤ 0 := by
      refine foldl_max_le _ _ 0 (by omega) (fun x hx => ?_)
      rcases List.mem_map.1 hx with ⟨mv, hmv, rfl⟩
      rw [hchild mv hmv]
      rw [havail] at hmv
      fin_cases hmv <;>
        first
          | (rw [cornerO_value _ (by decide)])
          | (rw [edgeO_value _ (by decide)]; omega)
    omega
  obtain ⟨hsub, hnonempty, _⟩ := candidates_spec (emptyBoard.set 4 Cell.X) Cell.O Cell.X
  refine ⟨hnonempty (by rw [havail]; simp), fun m hm => ?_⟩
  have hmav := hsub m hm
  have hpres := candidate_preserves_value (show Cell.O ≠ Cell.X by decide)
    (by decide) (by decide) (by decide) hcw (by decide) hm
  rw [hcnt] at hpres
  have hm9 : bestOutcome 9 ((emptyBoard.set 4 Cell.X).set m Cell.O)
      Cell.O Cell.X false = 0 :=
    (hchild m hmav).symm.trans (hpres.trans hV)
  have hmav2 := hmav
  rw [havail] at hmav2
  constructor
  · fin_cases hmav2 <;>
      first
        | decide
        | (exfalso
           rw [edgeO_value _ (by decide)] at hm9
           exact absurd hm9 (by decide))
  · fin_cases hmav2 <;>
      first
        | decide
        | (exfalso
           rw [edgeO_value _ (by decide)] at hm9
           exact absurd hm9 (by decide))

/-! ## The claims -/

/-- C1: playing `best_move_for_computer` for both sides from the empty board
always ends in a tie, for every resolution of the random tie-break; and in
general any candidate move preserves the game value: it reaches a winning
position whenever a win is forceable, and never turns a non-lost position
(value ≥ 0) into a forced loss, given optimal subsequent computer play. -/
theorem claim1_optimal_play (ch : List Nat → Nat) (hch : ∀ l, l ≠ [] → ch l ∈ l)
    (b : Board) (comp human : Cell) (m : Nat)
    (hne : comp ≠ human) (hcE : comp ≠ Cell.E) (hhE : human ≠ Cell.E)
    (hb : boardOf comp human b) (hlen : b.length = 9) (hE : Cell.E ∈ b)
    (hcw : check_winner b = WinnerResult.ongoing)
    (hm : m ∈ best_move_candidates b comp human) :
    check_winner (playBoth ch 9 emptyBoard Cell.X Cell.O) = WinnerResult.tie ∧
    (bestOutcome (countE b + 1) b comp human true = 1 →
      bestOutcome (countE b) (b.set m comp) comp human false = 1) ∧
    (0 ≤ bestOutcome (countE b + 1) b comp human true →
      0 ≤ bestOutcome (countE b) (b.set m comp) comp human false) := by
  have hc9 : countE b ≤ 9 := by
    unfold countE
    rw [← hlen]
    exact List.count_le_length _ _
  have hpres := candidate_preserves_value hne hcE hhE hb hcw hc9 hm
  refine ⟨?_, fun h => by rw [hpres, h], fun h => by rw [hpres]; exact h⟩
  refine playBoth_drawn ch hch 9 emptyBoard Cell.X Cell.O (by decide) (by decide)
    (by decide) (by decide) (by decide) (by decide) ?_
  exact emptyBoard_value

theorem claim1_witness :
    check_winner (playBoth (fun l => l.headD 0) 9 emptyBoard Cell.X Cell.O) =
      WinnerResult.tie ∧
    (bestOutcome
        (countE [Cell.X,Cell.X,Cell.E,Cell.E,Cell.O,Cell.E,Cell.E,Cell.E,Cell.O] + 1)
        [Cell.X,Cell.X,Cell.E,Cell.E,Cell.O,Cell.E,Cell.E,Cell.E,Cell.O]
        Cell.O Cell.X true = 1 →
      bestOutcome
        (countE [Cell.X,Cell.X,Cell.E,Cell.E,Cell.O,Cell.E,Cell.E,Cell.E,Cell.O])
        ([Cell.X,Cell.X,Cell.E,Cell.E,Cell.O,Cell.E,Cell.E,Cell.E,Cell.O].set 2 Cell.O)
        Cell.O Cell.X false = 1) ∧
    (0 ≤ bestOutcome
        (countE [Cell.X,Cell.X,Cell.E,Cell.E,Cell.O,Cell.E,Cell.E,Cell.E,Cell.O] + 1)
        [Cell.X,Cell.X,Cell.E,Cell.E,Cell.O,Cell.E,Cell.E,Cell.E,Cell.O]
        Cell.O Cell.X true →
      0 ≤ bestOutcome
        (countE [Cell.X,Cell.X,Cell.E,Cell.E,Cell.O,Cell.E,Cell.E,Cell.E,Cell.O])
        ([Cell.X,Cell.X,Cell.E,Cell.E,Cell.O,Cell.E,Cell.E,Cell.E,Cell.O].set 2 Cell.O)
        Cell.O Cell.X false) :=
  claim1_optimal_play (fun l => l.headD 0)
    (fun l hl => by
      cases l with
      | nil => exact absurd rfl hl
      | cons a t => exact List.mem_cons_self a t)
    [Cell.X,Cell.X,Cell.E,Cell.E,Cell.O,Cell.E,Cell.E,Cell.E,Cell.O]
    Cell.O Cell.X 2 (by decide) (by decide) (by decide) (by decide) (by decide)
    (by decide) (by decide) (by decide)

/-- C2 counterexample: on the (unreachable in real play) board X X X / O O O /
_ _ _ the line (3,4,5) is completed by O, yet `check_winner` reports X — the
first completed line in the scan order — so "returns Won with that mark for
every completed line, regardless of the other cells" is false as stated. -/
theorem claim2_counterexample :
    ((3,4,5) ∈ wins ∧
     getc [Cell.X,Cell.X,Cell.X,Cell.O,Cell.O,Cell.O,Cell.E,Cell.E,Cell.E] 3 = Cell.O ∧
     getc [Cell.X,Cell.X,Cell.X,Cell.O,Cell.O,Cell.O,Cell.E,Cell.E,Cell.E] 4 = Cell.O ∧
     getc [Cell.X,Cell.X,Cell.X,Cell.O,Cell.O,Cell.O,Cell.E,Cell.E,Cell.E] 5 = Cell.O ∧
     Cell.O ≠ Cell.E) ∧
    check_winner [Cell.X,Cell.X,Cell.X,Cell.O,Cell.O,Cell.O,Cell.E,Cell.E,Cell.E] ≠
      WinnerResult.mark Cell.O := by decide

/-- C2 (amended): if some Line is completed by the non-Empty mark `m` and
every completed Line on the board bears `m`, then `check_winner` returns
Won(m), regardless of the other cells' contents. -/
theorem claim2_amended (b : Board) (t : Nat × Nat × Nat) (m : Cell)
    (ht : t ∈ wins) (hm : m ≠ Cell.E)
    (h1 : getc b t.1 = m) (h2 : getc b t.2.1 = m) (h3 : getc b t.2.2 = m)
    (huniq : ∀ t2 ∈ wins, lineWin b t2 = true → getc b t2.1 = m) :
    check_winner b = WinnerResult.mark m := by
  have hlw : lineWin b t = true := by
    simp only [lineWin, Bool.and_eq_true, beq_iff_eq, bne_iff_ne]
    exact ⟨⟨h1.trans h2.symm, h2.trans h3.symm⟩, h1 ▸ hm⟩
  have hsome : (wins.find? (lineWin b)).isSome := by
    rw [List.find?_isSome]
    exact ⟨t, ht, hlw⟩
  obtain ⟨t2, ht2⟩ := Option.isSome_iff_exists.1 hsome
  unfold check_winner
  rw [ht2]
  show WinnerResult.mark (getc b t2.1) = WinnerResult.mark m
  rw [huniq t2 (List.mem_of_find?_eq_some ht2) (List.find?_some ht2)]

theorem claim2_witness :
    check_winner [Cell.X,Cell.X,Cell.X,Cell.O,Cell.O,Cell.E,Cell.E,Cell.E,Cell.E] =
      WinnerResult.mark Cell.X :=
  claim2_amended _ (0,1,2) Cell.X (by decide) (by decide) (by decide) (by decide)
    (by decide) (by decide)

set_option maxRecDepth 40000 in
set_option maxHeartbeats 1000000 in
/-- C3: on the board X X _ / _ O _ / _ _ O with O to move, the forced block at
index 2 is the unique candidate, so `best_move_for_computer` returns 2 for
every outcome of the random tie-break. -/
theorem claim3_forced_block :
    best_move_candidates [Cell.X,Cell.X,Cell.E,Cell.E,Cell.O,Cell.E,Cell.E,Cell.E,Cell.O]
      Cell.O Cell.X = [2] := by decide

/-- C4: when the human has opened with X in the centre of an otherwise empty
board and the computer plays O, the candidate list is nonempty and every
candidate is a corner (0, 2, 6 or 8), never an edge (1, 3, 5 or 7), so
`best_move_for_computer` returns a corner for every outcome of the random
tie-break. -/
theorem claim4_center_reply :
    best_move_candidates (emptyBoard.set 4 Cell.X) Cell.O Cell.X ≠ [] ∧
    ∀ m ∈ best_move_candidates (emptyBoard.set 4 Cell.X) Cell.O Cell.X,
      m ∈ corners ∧ m ∉ edges :=
  center_reply_core

/-- C5: on an ongoing 9-cell board, every index `best_move_for_computer` can
return (every candidate) is in range 0..8 and denotes an Empty cell of the
input board. -/
theorem claim5_returns_empty (b : Board) (comp human : Cell) (m : Nat)
    (hlen : b.length = 9) (hE : Cell.E ∈ b)
    (hcw : check_winner b = WinnerResult.ongoing)
    (hm : m ∈ best_move_candidates b comp human) :
    m < 9 ∧ getc b m = Cell.E := by
  have hmav := (candidates_spec b comp human).1 m hm
  have hget := mem_available_iff.1 hmav
  constructor
  · rw [← hlen]
    exact (List.getElem?_eq_some.1 hget).1
  · unfold getc
    rw [List.getD_eq_getElem?_getD, hget]
    rfl

theorem claim5_witness :
    (2 : Nat) < 9 ∧
    getc [Cell.X,Cell.X,Cell.E,Cell.E,Cell.O,Cell.E,Cell.E,Cell.E,Cell.O] 2 = Cell.E :=
  claim5_returns_empty [Cell.X,Cell.X,Cell.E,Cell.E,Cell.O,Cell.E,Cell.E,Cell.E,Cell.O]
    Cell.O Cell.X 2 (by decide) (by decide) (by decide) (by decide)

/-- C6: `best_move_for_computer` returns the board exactly as it received it:
every speculative placement of the top-level loop is undone. -/
theorem claim6_no_mutation (b : Board) (comp human : Cell) (hE : Cell.E ∈ b)
    (hcw : check_winner b = WinnerResult.ongoing) :
    (best_move_st b comp human).2 = b :=
  best_move_st_snd b comp human

theorem claim6_witness :
    (best_move_st [Cell.X,Cell.X,Cell.E,Cell.E,Cell.O,Cell.E,Cell.E,Cell.E,Cell.O]
      Cell.O Cell.X).2 =
    [Cell.X,Cell.X,Cell.E,Cell.E,Cell.O,Cell.E,Cell.E,Cell.E,Cell.O] :=
  claim6_no_mutation [Cell.X,Cell.X,Cell.E,Cell.E,Cell.O,Cell.E,Cell.E,Cell.E,Cell.O]
    Cell.O Cell.X (by decide) (by decide)

/-- C7: the recursive scorer returns `10 - depth` on a board already won by
`player`, `-10 + depth` on a board won by `opponent`, and `0` on a tie,
without recursing (the terminal branch yields the value directly). -/
theorem claim7_terminal_scores (fuel d : Nat) (b : Board) (mx : Bool)
    (player opponent : Cell) (hne : player ≠ opponent) :
    (check_winner b = WinnerResult.mark player →
      minimax (fuel+1) b d mx player opponent = Score.int (10 - (d : Int))) ∧
    (check_winner b = WinnerResult.mark opponent →
      minimax (fuel+1) b d mx player opponent = Score.int (-10 + (d : Int))) ∧
    (check_winner b = WinnerResult.tie →
      minimax (fuel+1) b d mx player opponent = Score.int 0) :=
  ⟨fun h => minimax_mark_p h, fun h => minimax_mark_o hne h, fun h => minimax_tie h⟩

theorem claim7_witness :
    (check_winner [Cell.X,Cell.X,Cell.X,Cell.O,Cell.O,Cell.E,Cell.E,Cell.E,Cell.E] =
        WinnerResult.mark Cell.X →
      minimax (0+1) [Cell.X,Cell.X,Cell.X,Cell.O,Cell.O,Cell.E,Cell.E,Cell.E,Cell.E]
        3 true Cell.X Cell.O = Score.int (10 - (3 : Int))) ∧
    (check_winner [Cell.X,Cell.X,Cell.X,Cell.O,Cell.O,Cell.E,Cell.E,Cell.E,Cell.E] =
        WinnerResult.mark Cell.O →
      minimax (0+1) [Cell.X,Cell.X,Cell.X,Cell.O,Cell.O,Cell.E,Cell.E,Cell.E,Cell.E]
        3 true Cell.X Cell.O = Score.int (-10 + (3 : Int))) ∧
    (check_winner [Cell.X,Cell.X,Cell.X,Cell.O,Cell.O,Cell.E,Cell.E,Cell.E,Cell.E] =
        WinnerResult.tie →
      minimax (0+1) [Cell.X,Cell.X,Cell.X,Cell.O,Cell.O,Cell.E,Cell.E,Cell.E,Cell.E]
        3 true Cell.X Cell.O = Score.int 0) :=
  claim7_terminal_scores 0 3 [Cell.X,Cell.X,Cell.X,Cell.O,Cell.O,Cell.E,Cell.E,Cell.E,Cell.E]
    true Cell.X Cell.O (by decide)

/-- C8: on a 9-cell board with no completed line, `check_winner` returns Tie
when no cell is Empty and Ongoing when at least one cell is Empty. -/
theorem claim8_draw_ongoing (b : Board) (hlen : b.length = 9)
    (hnoline : ∀ t ∈ wins, ¬(getc b t.1 = getc b t.2.1 ∧ getc b t.2.1 = getc b t.2.2 ∧
      getc b t.1 ≠ Cell.E)) :
    (Cell.E ∉ b → check_winner b = WinnerResult.tie) ∧
    (Cell.E ∈ b → check_winner b = WinnerResult.ongoing) := by
  have hfind : wins.find? (lineWin b) = none := by
    rw [List.find?_eq_none]
    intro t ht
    have hno := hnoline t ht
    simp only [lineWin, Bool.and_eq_true, beq_iff_eq, bne_iff_ne]
    intro hcon
    exact hno ⟨hcon.1.1, hcon.1.2, hcon.2⟩
  unfold check_winner
  rw [hfind]
  constructor
  · intro hnE
    rw [if_neg hnE]
  · intro hE2
    rw [if_pos hE2]

theorem claim8_witness :
    (Cell.E ∉ ([Cell.X,Cell.O,Cell.X,Cell.X,Cell.O,Cell.O,Cell.O,Cell.X,Cell.X] : Board) →
      check_winner [Cell.X,Cell.O,Cell.X,Cell.X,Cell.O,Cell.O,Cell.O,Cell.X,Cell.X] =
        WinnerResult.tie) ∧
    (Cell.E ∈ ([Cell.X,Cell.O,Cell.X,Cell.X,Cell.O,Cell.O,Cell.O,Cell.X,Cell.X] : Board) →
      check_winner [Cell.X,Cell.O,Cell.X,Cell.X,Cell.O,Cell.O,Cell.O,Cell.X,Cell.X] =
        WinnerResult.ongoing) :=
  claim8_draw_ongoing [Cell.X,Cell.O,Cell.X,Cell.X,Cell.O,Cell.O,Cell.O,Cell.X,Cell.X]
    (by decide) (by decide)

/-- C9: the recursive scorer itself restores the board: for every fuel, board,
depth, maximising flag and marks, the board threaded out of `minimax` equals
the board passed in — every speculative placement is undone before return. -/
theorem claim9_minimax_restores (fuel : Nat) (b : Board) (depth : Nat)
    (is_maximizing : Bool) (player opponent : Cell) :
    (minimax_st fuel b depth is_maximizing player opponent).2 = b :=
  minimax_st_snd fuel b depth is_maximizing player opponent

/-- C10 counterexample: a full board already won by X has an empty candidate
list, so `best_move_for_computer` raises in `random.choice` even though the
board "is already won" — refuting the claim's "yields a result iff at least
one Empty cell or already won". -/
theorem claim10_counterexample :
    check_winner [Cell.X,Cell.X,Cell.X,Cell.O,Cell.O,Cell.X,Cell.O,Cell.X,Cell.O] =
      WinnerResult.mark Cell.X ∧
    best_move_candidates [Cell.X,Cell.X,Cell.X,Cell.O,Cell.O,Cell.X,Cell.O,Cell.X,Cell.O]
      Cell.O Cell.X = [] := by decide

/-- C10 (amended): `best_move_for_computer` yields a result (the candidate
list handed to `random.choice` is nonempty) exactly when the board has at
least one Empty cell — whether or not the board is already won. -/
theorem claim10_amended (b : Board) (comp human : Cell) :
    best_move_candidates b comp human ≠ [] ↔ Cell.E ∈ b := by
  constructor
  · intro hne
    by_contra hnE
    have hav : available_moves b = [] := by
      cases hav : available_moves b with
      | nil => rfl
      | cons x xs => exact absurd (memE_of_available (hav ▸ List.mem_cons_self x xs)) hnE
    unfold best_move_candidates best_move_st at hne
    rw [hav] at hne
    exact hne rfl
  · intro hE2
    exact (candidates_spec b comp human).2.1 (available_ne_nil_of_memE hE2)

end TicTacToe
